import Mathlib

/-!
Verification of an in-memory undirected graph data structure
(`Graph` / `WeightedGraph` from `ch4_graph.py`).

The embedding follows the Python source closely:

* Python list indices are arbitrary integers; `pyIdx` resolves an integer
  index against a list of length `n` exactly as Python does (indices in
  `[0, n)` are used directly, indices in `[-n, 0)` wrap around, anything
  else raises `IndexError`).
* Errors are explicit: mutating operations return the post-state of the
  object together with an optional error, because a Python exception
  raised half-way through a method leaves the earlier mutations in place.
* `list.index` (value lookup) returns the first matching position or
  raises `ValueError` (the spec's "NotFound" kind); it is embedded as
  `pyIndex`, returning `Option Nat`.
* Float edge weights are modelled as `Rat`; the program only stores and
  compares weights, never performs float arithmetic on them.
-/

/-- The error kinds the source can raise: `IndexError` from integer list
indexing, `ValueError` from `list.index` on an absent value (the spec's
"NotFound" kind). -/
inductive PyError where
  | indexError
  | valueError
deriving DecidableEq, Repr

/-- Resolve a Python list index `i` against a list of length `n`:
`some k` with the effective non-negative position, or `none` for
`IndexError`, following Python's negative-index semantics. -/
def pyIdx (n : Nat) (i : Int) : Option Nat :=
  if 0 ≤ i ∧ i < (n : Int) then some i.toNat
  else if -(n : Int) ≤ i ∧ i < 0 then some (i + n).toNat
  else none

/-- Python `l[i]` for reading: `none` models `IndexError`. -/
def pyGet (l : List α) (i : Int) : Option α :=
  (pyIdx l.length i).bind (fun k => l[k]?)

/-- Python `l.index(x)`: position of the first match, `none` models
`ValueError`. -/
def pyIndex [DecidableEq α] : List α → α → Option Nat
  | [], _ => none
  | a :: as, x => if a = x then some 0 else (pyIndex as x).map (· + 1)

/-- Python `l[i].append(x)` after `i` has already been resolved to an
in-range non-negative position. -/
def appendAt (ls : List (List α)) (i : Nat) (x : α) : List (List α) :=
  ls.set i ((ls[i]?.getD []) ++ [x])

/-- Python's `list(map(f, is))` where each application of `f` may raise:
the first failure propagates and no list is produced. -/
def optMap (f : Int → Option α) : List Int → Option (List α)
  | [] => some []
  | i :: is => (f i).bind (fun x => (optMap f is).map (fun xs => x :: xs))

/-- The `Edge` dataclass: one direction of an undirected connection,
endpoints are vertex indices. -/
structure Edge where
  u : Int
  v : Int
deriving DecidableEq, Repr

/-- `Edge.reversed`: swap the endpoints. -/
def Edge.reversed (e : Edge) : Edge := Edge.mk e.v e.u

/-- The state of a `Graph[V]`: the vertex sequence `_vertices` and the
parallel adjacency-list sequence `_edges`. -/
structure Graph (V : Type) where
  vertices : List V
  edges : List (List Edge)
deriving DecidableEq, Repr

namespace Graph

variable {V : Type}

/-- `Graph.__init__(vertices)`: one empty adjacency list per vertex. -/
def ofVertices (vs : List V) : Graph V :=
  { vertices := vs, edges := vs.map (fun _ => []) }

/-- `vertex_count` property. -/
def vertex_count (g : Graph V) : Nat := g.vertices.length

/-- `edge_count` property: `sum(map(len, self._edges))`. -/
def edge_count (g : Graph V) : Nat := (g.edges.map List.length).sum

/-- `add_vertex`: append the vertex and an empty adjacency list, return
the new state and `self.vertex_count - 1`. -/
def add_vertex (g : Graph V) (x : V) : Graph V × Nat :=
  let g' : Graph V := { vertices := g.vertices ++ [x], edges := g.edges ++ [[]] }
  (g', g'.vertex_count - 1)

/-- `add_edge(edge)`: `self._edges[edge.u].append(edge)` then
`self._edges[edge.v].append(edge.reversed())`.  The first append happens
before the second index is checked, so an `IndexError` on `edge.v` leaves
the first mutation in place. -/
def add_edge (g : Graph V) (e : Edge) : Graph V × Option PyError :=
  match pyIdx g.edges.length e.u with
  | none => (g, some PyError.indexError)
  | some iu =>
    let es1 := appendAt g.edges iu e
    match pyIdx es1.length e.v with
    | none => ({ vertices := g.vertices, edges := es1 }, some PyError.indexError)
    | some iv => ({ vertices := g.vertices, edges := appendAt es1 iv e.reversed }, none)

/-- `add_edge_by_indices(u, v)`. -/
def add_edge_by_indices (g : Graph V) (u v : Int) : Graph V × Option PyError :=
  g.add_edge (Edge.mk u v)

/-- `add_edge_by_vertices(first, second)`: resolve both values with
`list.index` (raising `ValueError` before any mutation if absent), then
delegate to `add_edge_by_indices`. -/
def add_edge_by_vertices [DecidableEq V] (g : Graph V) (first second : V) :
    Graph V × Option PyError :=
  match pyIndex g.vertices first with
  | none => (g, some PyError.valueError)
  | some u =>
    match pyIndex g.vertices second with
    | none => (g, some PyError.valueError)
    | some v => g.add_edge_by_indices u v

/-- `vertex_at(index)`. -/
def vertex_at (g : Graph V) (index : Int) : Option V := pyGet g.vertices index

/-- `index_of(vertex)`. -/
def index_of [DecidableEq V] (g : Graph V) (x : V) : Option Nat := pyIndex g.vertices x

/-- `neighbors_for_index(index)`: map `vertex_at` over the `v` endpoints
of the adjacency list at `index`. -/
def neighbors_for_index (g : Graph V) (index : Int) : Option (List V) :=
  (pyGet g.edges index).bind (fun l => optMap (pyGet g.vertices) (l.map Edge.v))

/-- `neighbors_for_vertex(vertex)`. -/
def neighbors_for_vertex [DecidableEq V] (g : Graph V) (x : V) : Option (List V) :=
  (g.index_of x).bind (fun i => g.neighbors_for_index i)

/-- `edges_for_index(index)`. -/
def edges_for_index (g : Graph V) (index : Int) : Option (List Edge) :=
  pyGet g.edges index

/-- `edges_for_vertex(vertex)`: embeds the source line
`return self.edges_for_index(self.vertex_at(vertex))` as written — the
vertex VALUE is passed to `vertex_at` and the resulting vertex value is
used as an index.  This is only well-typed when `V = Int`, mirroring the
dynamic typing under which the Python code runs for integer vertices. -/
def edges_for_vertex (g : Graph Int) (vertex : Int) : Option (List Edge) :=
  (g.vertex_at vertex).bind (fun i => g.edges_for_index i)

/-- The graph invariant the constructor establishes and every operation
preserves: parallel sequences, and every stored edge endpoint `v`
resolvable by `vertex_at` without wrap-around. -/
def wf (g : Graph V) : Prop :=
  g.edges.length = g.vertices.length ∧
    ∀ l ∈ g.edges, ∀ e ∈ l, 0 ≤ e.v ∧ e.v < (g.vertices.length : Int)

instance (g : Graph V) : Decidable g.wf := by
  unfold wf; infer_instance

end Graph

/-- The `WeightedEdge` dataclass: an edge carrying a weight (Python
`float`, embedded as `Rat`: the program only stores and compares it). -/
structure WEdge where
  u : Int
  v : Int
  weight : Rat
deriving DecidableEq, Repr

/-- `WeightedEdge.reversed`: swap the endpoints, keep the weight. -/
def WEdge.reversed (e : WEdge) : WEdge := WEdge.mk e.v e.u e.weight

/-- `WeightedEdge.__lt__`: compare by weight only. -/
def WEdge.lt (a b : WEdge) : Bool := a.weight < b.weight

/-- The state of a `WeightedGraph[V]`: the subclass replaces the edge
storage with lists of `WeightedEdge`, so it is embedded as its own
structure; the inherited methods act on this storage via dynamic
dispatch (`reversed` is `WEdge.reversed`). -/
structure WGraph (V : Type) where
  vertices : List V
  edges : List (List WEdge)
deriving DecidableEq, Repr

namespace WGraph

variable {V : Type}

/-- `WeightedGraph.__init__(vertices)`. -/
def ofVertices (vs : List V) : WGraph V :=
  { vertices := vs, edges := vs.map (fun _ => []) }

/-- `vertex_count` (inherited). -/
def vertex_count (g : WGraph V) : Nat := g.vertices.length

/-- `edge_count` (inherited). -/
def edge_count (g : WGraph V) : Nat := (g.edges.map List.length).sum

/-- `add_edge` as inherited from `Graph`, acting on the weighted storage;
`edge.reversed()` dispatches to `WeightedEdge.reversed`. -/
def add_edge (g : WGraph V) (e : WEdge) : WGraph V × Option PyError :=
  match pyIdx g.edges.length e.u with
  | none => (g, some PyError.indexError)
  | some iu =>
    let es1 := appendAt g.edges iu e
    match pyIdx es1.length e.v with
    | none => ({ vertices := g.vertices, edges := es1 }, some PyError.indexError)
    | some iv => ({ vertices := g.vertices, edges := appendAt es1 iv e.reversed }, none)

/-- `WeightedGraph.add_edge_by_indices(u, v, weight)`. -/
def add_edge_by_indices (g : WGraph V) (u v : Int) (weight : Rat) :
    WGraph V × Option PyError :=
  g.add_edge (WEdge.mk u v weight)

/-- `WeightedGraph.add_edge_by_vertices(first, second, weight)`. -/
def add_edge_by_vertices [DecidableEq V] (g : WGraph V) (first second : V)
    (weight : Rat) : WGraph V × Option PyError :=
  match pyIndex g.vertices first with
  | none => (g, some PyError.valueError)
  | some u =>
    match pyIndex g.vertices second with
    | none => (g, some PyError.valueError)
    | some v => g.add_edge_by_indices u v weight

/-- `vertex_at` (inherited). -/
def vertex_at (g : WGraph V) (index : Int) : Option V := pyGet g.vertices index

/-- `edges_for_index` (inherited). -/
def edges_for_index (g : WGraph V) (index : Int) : Option (List WEdge) :=
  pyGet g.edges index

/-- The `(vertex_at(edge.v), edge.weight)` pairs accumulated by
`neighbors_for_index_with_weights`; a failing `vertex_at` propagates. -/
def wpairs (g : WGraph V) : List WEdge → Option (List (V × Rat))
  | [] => some []
  | e :: es =>
    (pyGet g.vertices e.v).bind (fun x => (g.wpairs es).map (fun xs => (x, e.weight) :: xs))

/-- `neighbors_for_index_with_weights(index)`. -/
def neighbors_for_index_with_weights (g : WGraph V) (index : Int) :
    Option (List (V × Rat)) :=
  (g.edges_for_index index).bind (fun l => g.wpairs l)

/-- The weighted analogue of `Graph.wf`. -/
def wf (g : WGraph V) : Prop :=
  g.edges.length = g.vertices.length ∧
    ∀ l ∈ g.edges, ∀ e ∈ l, 0 ≤ e.v ∧ e.v < (g.vertices.length : Int)

instance (g : WGraph V) : Decidable g.wf := by
  unfold wf; infer_instance

end WGraph

/-- One mutating call on a `Graph`. -/
inductive GOp (V : Type) where
  | addVertex (x : V)
  | addEdgeByIndices (u v : Int)
  | addEdgeByVertices (first second : V)
deriving DecidableEq, Repr

/-- Whether the op is one of the `add_edge*` calls. -/
def GOp.isEdgeOp {V : Type} : GOp V → Bool
  | .addVertex _ => false
  | .addEdgeByIndices _ _ => true
  | .addEdgeByVertices _ _ => true

namespace Graph

variable {V : Type}

/-- Apply one mutating call, returning the post-state and the error it
raised, if any (`add_vertex` never fails). -/
def applyOp [DecidableEq V] (g : Graph V) : GOp V → Graph V × Option PyError
  | .addVertex x => ((g.add_vertex x).1, none)
  | .addEdgeByIndices u v => g.add_edge_by_indices u v
  | .addEdgeByVertices f s => g.add_edge_by_vertices f s

/-- Run a sequence of mutating calls, keeping each post-state (a raised
exception does not roll the object back). -/
def runOps [DecidableEq V] (g : Graph V) : List (GOp V) → Graph V
  | [] => g
  | op :: ops => ((g.applyOp op).1).runOps ops

/-- `true` when every call in the sequence completes without raising. -/
def opsOk [DecidableEq V] (g : Graph V) : List (GOp V) → Bool
  | [] => true
  | op :: ops => (g.applyOp op).2 = none && ((g.applyOp op).1).opsOk ops

end Graph

/-! ### Basic facts about the Python-semantics helpers -/

lemma pyIdx_of_nonneg {n : Nat} {i : Int} (h0 : 0 ≤ i) (h1 : i < (n : Int)) :
    pyIdx n i = some i.toNat := by
  unfold pyIdx
  rw [if_pos ⟨h0, h1⟩]

lemma pyIdx_lt {n : Nat} {i : Int} {k : Nat} (h : pyIdx n i = some k) : k < n := by
  unfold pyIdx at h
  split at h
  · next hc => injection h with h; omega
  · split at h
    · next _ hc => injection h with h; omega
    · exact absurd h (by simp)

lemma pyIdx_eq_none {n : Nat} {i : Int} (h : i < -(n : Int) ∨ (n : Int) ≤ i) :
    pyIdx n i = none := by
  unfold pyIdx
  rw [if_neg (by omega), if_neg (by omega)]

lemma pyGet_of_nonneg {l : List α} {i : Int} (h0 : 0 ≤ i) (h1 : i < (l.length : Int)) :
    pyGet l i = l[i.toNat]? := by
  unfold pyGet
  rw [pyIdx_of_nonneg h0 h1]
  rfl

lemma pyGet_isSome_of {l : List α} {i : Int} (h0 : 0 ≤ i) (h1 : i < (l.length : Int)) :
    ∃ x, pyGet l i = some x := by
  rw [pyGet_of_nonneg h0 h1]
  exact ⟨l.get ⟨i.toNat, by omega⟩, List.getElem?_eq_getElem (by omega)⟩

lemma pyIndex_eq_none_iff [DecidableEq α] (l : List α) (x : α) :
    pyIndex l x = none ↔ x ∉ l := by
  induction l with
  | nil => simp [pyIndex]
  | cons a as ih =>
    by_cases hax : a = x
    · subst hax
      simp [pyIndex]
    · simp [pyIndex, hax, Option.map_eq_none, ih, Ne.symm hax]

/-- `pyIndex` returns the position of the first match. -/
lemma pyIndex_first [DecidableEq α] {l : List α} {x : α} {k : Nat}
    (h : pyIndex l x = some k) :
    l[k]? = some x ∧ ∀ j, j < k → l[j]? ≠ some x := by
  induction l generalizing k with
  | nil => simp [pyIndex] at h
  | cons a as ih =>
    by_cases hax : a = x
    · subst hax
      simp [pyIndex] at h
      subst h
      simp
    · simp [pyIndex, hax, Option.map_eq_some] at h
      obtain ⟨k0, hk0, rfl⟩ := h
      obtain ⟨h1, h2⟩ := ih hk0
      refine ⟨by simpa using h1, ?_⟩
      intro j hj
      cases j with
      | zero => simpa using hax
      | succ j0 => simpa using h2 j0 (by omega)

@[simp] lemma length_appendAt (ls : List (List α)) (i : Nat) (x : α) :
    (appendAt ls i x).length = ls.length := by
  simp [appendAt]

lemma getElem?_appendAt_self {ls : List (List α)} {i : Nat} (h : i < ls.length) (x : α) :
    (appendAt ls i x)[i]? = some ((ls.get ⟨i, h⟩) ++ [x]) := by
  unfold appendAt
  rw [List.getElem?_set_self (by omega), List.getElem?_eq_getElem h]
  rfl

lemma getElem?_appendAt_ne {ls : List (List α)} {i j : Nat} (h : i ≠ j) (x : α) :
    (appendAt ls i x)[j]? = ls[j]? := by
  unfold appendAt
  exact List.getElem?_set_ne h

lemma appendAt_cons_zero (a : List α) (as : List (List α)) (x : α) :
    appendAt (a :: as) 0 x = (a ++ [x]) :: as := by
  simp [appendAt]

lemma appendAt_cons_succ (a : List α) (as : List (List α)) (i : Nat) (x : α) :
    appendAt (a :: as) (i + 1) x = a :: appendAt as i x := by
  simp [appendAt]

lemma sum_map_length_appendAt (ls : List (List α)) (i : Nat) (x : α) (h : i < ls.length) :
    ((appendAt ls i x).map List.length).sum = (ls.map List.length).sum + 1 := by
  induction ls generalizing i with
  | nil => simp at h
  | cons a as ih =>
    cases i with
    | zero =>
      rw [appendAt_cons_zero]
      simp
      omega
    | succ i0 =>
      rw [appendAt_cons_succ]
      simp only [List.map_cons, List.sum_cons]
      rw [ih i0 (by simpa using h)]
      omega

/-- Membership in a list of the `appendAt` result comes from the old list
at the same position or is the appended element. -/
lemma mem_of_appendAt {ls : List (List α)} {i j : Nat} {x a : α} {l : List α}
    (hi : i < ls.length) (h : (appendAt ls i x)[j]? = some l) (ha : a ∈ l) :
    (∃ l0, ls[j]? = some l0 ∧ a ∈ l0) ∨ a = x := by
  by_cases hij : i = j
  · subst hij
    rw [getElem?_appendAt_self hi] at h
    injection h with h
    subst h
    rcases List.mem_append.mp ha with h1 | h2
    · exact Or.inl ⟨ls.get ⟨i, hi⟩, List.getElem?_eq_getElem hi, h1⟩
    · exact Or.inr (by simpa using h2)
  · rw [getElem?_appendAt_ne hij] at h
    exact Or.inl ⟨l, h, ha⟩

lemma optMap_eq_some {f : Int → Option α} {is : List Int}
    (h : ∀ i ∈ is, ∃ x, f i = some x) : ∃ xs, optMap f is = some xs := by
  induction is with
  | nil => exact ⟨[], rfl⟩
  | cons i is ih =>
    obtain ⟨x, hx⟩ := h i (by simp)
    obtain ⟨xs, hxs⟩ := ih (fun j hj => h j (by simp [hj]))
    exact ⟨x :: xs, by simp [optMap, hx, hxs]⟩

lemma optMap_mem {f : Int → Option α} {is : List Int} {xs : List α}
    (h : optMap f is = some xs) {i : Int} (hi : i ∈ is) {x : α} (hx : f i = some x) :
    x ∈ xs := by
  induction is generalizing xs with
  | nil => simp at hi
  | cons j js ih =>
    simp only [optMap, Option.bind_eq_some, Option.map_eq_some'] at h
    obtain ⟨y, hy, ys, hys, rfl⟩ := h
    rcases List.mem_cons.mp hi with rfl | hi2
    · rw [hx] at hy
      injection hy with hy
      subst hy
      exact List.mem_cons_self _ _
    · exact List.mem_cons_of_mem _ (ih hys hi2)

/-! ### Characterizing `add_edge` -/

namespace Graph

variable {V : Type}

lemma add_edge_fail_u {g : Graph V} {e : Edge}
    (hu : pyIdx g.edges.length e.u = none) :
    g.add_edge e = (g, some PyError.indexError) := by
  unfold add_edge
  rw [hu]

lemma add_edge_fail_v {g : Graph V} {e : Edge} {iu : Nat}
    (hu : pyIdx g.edges.length e.u = some iu)
    (hv : pyIdx g.edges.length e.v = none) :
    g.add_edge e =
      ({ vertices := g.vertices, edges := appendAt g.edges iu e }, some PyError.indexError) := by
  unfold add_edge
  rw [hu]
  simp only [length_appendAt, hv]

lemma add_edge_success {g : Graph V} {e : Edge} {iu iv : Nat}
    (hu : pyIdx g.edges.length e.u = some iu)
    (hv : pyIdx g.edges.length e.v = some iv) :
    g.add_edge e =
      ({ vertices := g.vertices,
         edges := appendAt (appendAt g.edges iu e) iv e.reversed }, none) := by
  unfold add_edge
  rw [hu]
  simp only [length_appendAt, hv]

lemma add_edge_lengths (g : Graph V) (e : Edge) :
    (g.add_edge e).1.vertices = g.vertices ∧ (g.add_edge e).1.edges.length = g.edges.length := by
  cases hu : pyIdx g.edges.length e.u with
  | none => rw [add_edge_fail_u hu]; exact ⟨rfl, rfl⟩
  | some iu =>
    cases hv : pyIdx g.edges.length e.v with
    | none => rw [add_edge_fail_v hu hv]; exact ⟨rfl, by simp⟩
    | some iv => rw [add_edge_success hu hv]; exact ⟨rfl, by simp⟩

lemma edge_count_add_edge_success {g : Graph V} {e : Edge}
    (h : (g.add_edge e).2 = none) :
    (g.add_edge e).1.edge_count = g.edge_count + 2 := by
  cases hu : pyIdx g.edges.length e.u with
  | none => rw [add_edge_fail_u hu] at h; simp at h
  | some iu =>
    cases hv : pyIdx g.edges.length e.v with
    | none => rw [add_edge_fail_v hu hv] at h; simp at h
    | some iv =>
      have h1 := pyIdx_lt hu
      have h2 := pyIdx_lt hv
      rw [add_edge_success hu hv]
      show ((appendAt (appendAt g.edges iu e) iv e.reversed).map List.length).sum = _
      rw [sum_map_length_appendAt _ _ _ (by simpa using h2),
        sum_map_length_appendAt _ _ _ h1]
      rfl

/-- Both lengths are preserved or incremented together by every op. -/
lemma applyOp_lengths [DecidableEq V] (g : Graph V) (op : GOp V)
    (h : g.edges.length = g.vertices.length) :
    (g.applyOp op).1.edges.length = (g.applyOp op).1.vertices.length := by
  cases op with
  | addVertex x => simp [applyOp, add_vertex, h]
  | addEdgeByIndices u v =>
    have := g.add_edge_lengths (Edge.mk u v)
    simp only [applyOp, add_edge_by_indices]
    rw [this.1, this.2, h]
  | addEdgeByVertices f s =>
    simp only [applyOp, add_edge_by_vertices]
    cases hf : pyIndex g.vertices f with
    | none => exact h
    | some u =>
      cases hs : pyIndex g.vertices s with
      | none => exact h
      | some v =>
        have h2 := g.add_edge_lengths (Edge.mk u v)
        show (g.add_edge (Edge.mk u v)).1.edges.length =
          (g.add_edge (Edge.mk u v)).1.vertices.length
        rw [h2.1, h2.2, h]

lemma runOps_lengths [DecidableEq V] (g : Graph V) (ops : List (GOp V))
    (h : g.edges.length = g.vertices.length) :
    (g.runOps ops).edges.length = (g.runOps ops).vertices.length := by
  induction ops generalizing g with
  | nil => exact h
  | cons op ops ih => exact ih _ (applyOp_lengths g op h)

/-- A successful `add_edge*` op adds exactly 2 to `edge_count`. -/
lemma edge_count_applyOp [DecidableEq V] {g : Graph V} {op : GOp V}
    (hop : op.isEdgeOp = true) (h : (g.applyOp op).2 = none) :
    (g.applyOp op).1.edge_count = g.edge_count + 2 := by
  cases op with
  | addVertex x => simp [GOp.isEdgeOp] at hop
  | addEdgeByIndices u v => exact edge_count_add_edge_success h
  | addEdgeByVertices f s =>
    simp only [applyOp, add_edge_by_vertices] at h ⊢
    cases hf : pyIndex g.vertices f with
    | none => rw [hf] at h; simp at h
    | some u =>
      rw [hf] at h
      cases hs : pyIndex g.vertices s with
      | none => rw [hs] at h; simp at h
      | some v =>
        rw [hs] at h
        exact edge_count_add_edge_success h

lemma edge_count_runOps [DecidableEq V] (g : Graph V) (ops : List (GOp V))
    (hall : ∀ op ∈ ops, op.isEdgeOp = true) (hok : g.opsOk ops = true) :
    (g.runOps ops).edge_count = g.edge_count + 2 * ops.length := by
  induction ops generalizing g with
  | nil => simp [runOps]
  | cons op ops ih =>
    simp only [opsOk, Bool.and_eq_true, decide_eq_true_eq] at hok
    have step := edge_count_applyOp (hall op (by simp)) hok.1
    have rest := ih ((g.applyOp op).1) (fun o ho => hall o (by simp [ho])) hok.2
    simp only [runOps]
    rw [rest, step]
    simp only [List.length_cons]
    ring

end Graph

lemma optMap_append {f : Int → Option α} {as bs : List Int} {xs ys : List α}
    (ha : optMap f as = some xs) (hb : optMap f bs = some ys) :
    optMap f (as ++ bs) = some (xs ++ ys) := by
  induction as generalizing xs with
  | nil =>
    simp only [optMap] at ha
    injection ha with ha
    subst ha
    simpa using hb
  | cons i is ih =>
    simp only [optMap, Option.bind_eq_some, Option.map_eq_some'] at ha
    obtain ⟨y, hy, ys2, hys2, rfl⟩ := ha
    have hc : (i :: is) ++ bs = i :: (is ++ bs) := rfl
    rw [hc]
    simp [optMap, hy, ih hys2]

lemma getElem?_appendAt_of_eq {ls : List (List α)} {i : Nat} {l : List α}
    (h : ls[i]? = some l) (x : α) :
    (appendAt ls i x)[i]? = some (l ++ [x]) := by
  have hi : i < ls.length := by
    by_contra hcon
    rw [List.getElem?_eq_none (by omega)] at h
    exact Option.noConfusion h
  unfold appendAt
  rw [List.getElem?_set_self hi, h]
  rfl

namespace Graph

variable {V : Type}

lemma edges_for_index_eq {g : Graph V} {i : Int}
    (h0 : 0 ≤ i) (h1 : i < (g.edges.length : Int)) :
    g.edges_for_index i = g.edges[i.toNat]? := by
  unfold edges_for_index
  rw [pyGet_of_nonneg h0 h1]

/-- The full effect of a successful in-range `add_edge_by_indices`. -/
lemma add_edge_by_indices_spec {g : Graph V} {u v : Int}
    (hlen : g.edges.length = g.vertices.length)
    (hu0 : 0 ≤ u) (hu1 : u < (g.vertices.length : Int))
    (hv0 : 0 ≤ v) (hv1 : v < (g.vertices.length : Int)) :
    (g.add_edge_by_indices u v).1 =
      { vertices := g.vertices,
        edges := appendAt (appendAt g.edges u.toNat (Edge.mk u v)) v.toNat (Edge.mk v u) } ∧
    (g.add_edge_by_indices u v).2 = none := by
  have hu : pyIdx g.edges.length u = some u.toNat := pyIdx_of_nonneg hu0 (by omega)
  have hv : pyIdx g.edges.length v = some v.toNat := pyIdx_of_nonneg hv0 (by omega)
  have h := add_edge_success (g := g) (e := Edge.mk u v) hu hv
  rw [add_edge_by_indices, h]
  exact ⟨rfl, rfl⟩

/-- If the adjacency list at `i` is known and all its endpoints are
resolvable, `neighbors_for_index` succeeds and contains the resolution of
every endpoint. -/
lemma neighbors_for_index_spec {g : Graph V} {i : Int} {l : List Edge}
    (h0 : 0 ≤ i) (h1 : i < (g.edges.length : Int))
    (hE : g.edges[i.toNat]? = some l)
    (hb : ∀ e ∈ l, 0 ≤ e.v ∧ e.v < (g.vertices.length : Int)) :
    ∃ xs, g.neighbors_for_index i = some xs ∧
      ∀ e ∈ l, ∀ x, pyGet g.vertices e.v = some x → x ∈ xs := by
  have hN : g.neighbors_for_index i = optMap (pyGet g.vertices) (l.map Edge.v) := by
    unfold neighbors_for_index
    rw [pyGet_of_nonneg h0 h1, hE]
    rfl
  have hall : ∀ j ∈ l.map Edge.v, ∃ x, pyGet g.vertices j = some x := by
    intro j hj
    obtain ⟨e, he, rfl⟩ := List.mem_map.mp hj
    exact pyGet_isSome_of (hb e he).1 (hb e he).2
  obtain ⟨xs, hxs⟩ := optMap_eq_some hall
  exact ⟨xs, by rw [hN, hxs],
    fun e he x hx => optMap_mem hxs (List.mem_map_of_mem _ he) hx⟩

end Graph

namespace WGraph

variable {V : Type}

lemma add_edge_success_weighted {g : WGraph V} {e : WEdge} {iu iv : Nat}
    (hu : pyIdx g.edges.length e.u = some iu)
    (hv : pyIdx g.edges.length e.v = some iv) :
    g.add_edge e =
      ({ vertices := g.vertices,
         edges := appendAt (appendAt g.edges iu e) iv e.reversed }, none) := by
  unfold add_edge
  rw [hu]
  simp only [length_appendAt, hv]

lemma edges_for_index_eq_weighted {g : WGraph V} {i : Int}
    (h0 : 0 ≤ i) (h1 : i < (g.edges.length : Int)) :
    g.edges_for_index i = g.edges[i.toNat]? := by
  unfold edges_for_index
  rw [pyGet_of_nonneg h0 h1]

/-- The full effect of a successful in-range weighted `add_edge_by_indices`. -/
lemma add_edge_by_indices_spec_weighted {g : WGraph V} {u v : Int} {w : Rat}
    (hlen : g.edges.length = g.vertices.length)
    (hu0 : 0 ≤ u) (hu1 : u < (g.vertices.length : Int))
    (hv0 : 0 ≤ v) (hv1 : v < (g.vertices.length : Int)) :
    (g.add_edge_by_indices u v w).1 =
      { vertices := g.vertices,
        edges := appendAt (appendAt g.edges u.toNat (WEdge.mk u v w)) v.toNat
          (WEdge.mk v u w) } ∧
    (g.add_edge_by_indices u v w).2 = none := by
  have hu : pyIdx g.edges.length u = some u.toNat := pyIdx_of_nonneg hu0 (by omega)
  have hv : pyIdx g.edges.length v = some v.toNat := pyIdx_of_nonneg hv0 (by omega)
  have h := add_edge_success_weighted (g := g) (e := WEdge.mk u v w) hu hv
  rw [add_edge_by_indices, h]
  exact ⟨rfl, rfl⟩

lemma wpairs_eq_some {g : WGraph V} {l : List WEdge}
    (h : ∀ e ∈ l, ∃ x, pyGet g.vertices e.v = some x) :
    ∃ ps, g.wpairs l = some ps := by
  induction l with
  | nil => exact ⟨[], rfl⟩
  | cons e es ih =>
    obtain ⟨x, hx⟩ := h e (by simp)
    obtain ⟨ps, hps⟩ := ih (fun e2 he2 => h e2 (by simp [he2]))
    exact ⟨(x, e.weight) :: ps, by simp [wpairs, hx, hps]⟩

lemma wpairs_mem {g : WGraph V} {l : List WEdge} {ps : List (V × Rat)}
    (h : g.wpairs l = some ps) {e : WEdge} (he : e ∈ l) {x : V}
    (hx : pyGet g.vertices e.v = some x) : (x, e.weight) ∈ ps := by
  induction l generalizing ps with
  | nil => simp at he
  | cons e2 es ih =>
    simp only [wpairs, Option.bind_eq_some, Option.map_eq_some'] at h
    obtain ⟨y, hy, qs, hqs, rfl⟩ := h
    rcases List.mem_cons.mp he with rfl | he2
    · rw [hx] at hy
      injection hy with hy
      subst hy
      exact List.mem_cons_self _ _
    · exact List.mem_cons_of_mem _ (ih hqs he2)

/-- If the weighted adjacency list at `i` is known and all its endpoints
are resolvable, `neighbors_for_index_with_weights` succeeds and contains
the `(vertex, weight)` pair of every stored edge. -/
lemma neighbors_with_weights_spec {g : WGraph V} {i : Int} {l : List WEdge}
    (h0 : 0 ≤ i) (h1 : i < (g.edges.length : Int))
    (hE : g.edges[i.toNat]? = some l)
    (hb : ∀ e ∈ l, 0 ≤ e.v ∧ e.v < (g.vertices.length : Int)) :
    ∃ ps, g.neighbors_for_index_with_weights i = some ps ∧
      ∀ e ∈ l, ∀ x, pyGet g.vertices e.v = some x → (x, e.weight) ∈ ps := by
  have hN : g.neighbors_for_index_with_weights i = g.wpairs l := by
    unfold neighbors_for_index_with_weights
    rw [edges_for_index_eq_weighted h0 h1, hE]
    rfl
  obtain ⟨ps, hps⟩ := wpairs_eq_some (g := g) (l := l)
    (fun e he => pyGet_isSome_of (hb e he).1 (hb e he).2)
  exact ⟨ps, by rw [hN, hps], fun e he x hx => wpairs_mem hps he hx⟩

end WGraph

/-! ### Claim theorems -/

/-- C7: `add_vertex(value)` never fails, appends `value` to the vertex
sequence and an empty adjacency list to the edge sequence, and returns
the new vertex's index, which equals `vertex_count - 1` after the
insertion (equivalently, the pre-insertion `vertex_count`). -/
theorem add_vertex_appends_and_returns_index {V : Type} (g : Graph V) (x : V) :
    (g.add_vertex x).1.vertices = g.vertices ++ [x] ∧
    (g.add_vertex x).1.edges = g.edges ++ [[]] ∧
    (g.add_vertex x).2 = (g.add_vertex x).1.vertex_count - 1 ∧
    (g.add_vertex x).2 = g.vertex_count := by
  refine ⟨rfl, rfl, rfl, ?_⟩
  simp [Graph.add_vertex, Graph.vertex_count]

/-- C9: `WeightedEdge` values compare by weight only (ascending), and
sorting three of them with weights 5, 1, 3 by this order yields the
weights in ascending order 1, 3, 5. -/
theorem wedge_lt_by_weight_only_and_sorting :
    (∀ a b : WEdge, (WEdge.lt a b = true) ↔ a.weight < b.weight) ∧
    (List.insertionSort (fun a b => WEdge.lt a b = true)
        [WEdge.mk 0 1 5, WEdge.mk 1 2 1, WEdge.mk 2 3 3]).map WEdge.weight
      = [1, 3, 5] := by
  constructor
  · intro a b
    simp [WEdge.lt]
  · decide

/-- C2: for every graph reachable from a constructor call by any
sequence of `add_vertex` / `add_edge*` operations, the number of
adjacency lists equals `vertex_count`. -/
theorem parallel_sequences_invariant {V : Type} [DecidableEq V]
    (vs : List V) (ops : List (GOp V)) :
    ((Graph.ofVertices vs).runOps ops).edges.length =
      ((Graph.ofVertices vs).runOps ops).vertex_count := by
  exact Graph.runOps_lengths _ _ (by simp [Graph.ofVertices])

/-- C4: `edge_count` is the sum of all adjacency-list lengths, and after
a sequence of successful `add_edge*` calls starting from a graph with no
edges, `edge_count` is twice the number of calls. -/
theorem edge_count_twice_add_edge_calls {V : Type} [DecidableEq V]
    (g : Graph V) (ops : List (GOp V))
    (h0 : g.edge_count = 0)
    (hall : ∀ op ∈ ops, op.isEdgeOp = true)
    (hok : g.opsOk ops = true) :
    g.edge_count = (g.edges.map List.length).sum ∧
    (g.runOps ops).edge_count = 2 * ops.length := by
  refine ⟨rfl, ?_⟩
  rw [Graph.edge_count_runOps g ops hall hok, h0]
  omega

/-- Witness for C4: two successful edge additions on a two-vertex graph
give `edge_count = 4`. -/
theorem edge_count_twice_add_edge_calls_witness :
    ((Graph.ofVertices ([7, 8] : List Int)).runOps
      [GOp.addEdgeByIndices 0 1, GOp.addEdgeByVertices 7 8]).edge_count = 2 * 2 :=
  (edge_count_twice_add_edge_calls (Graph.ofVertices ([7, 8] : List Int))
    [GOp.addEdgeByIndices 0 1, GOp.addEdgeByVertices 7 8]
    (by decide) (by decide) (by decide)).2

lemma pyIdx_range {n : Nat} {i : Int} {k : Nat} (h : pyIdx n i = some k) :
    -(n : Int) ≤ i ∧ i < (n : Int) := by
  unfold pyIdx at h
  split at h
  · next hc => omega
  · split at h
    · next _ hc => omega
    · exact absurd h (by simp)

/-- C1 is false as stated: with vertices `[10, 20]`, the call
`add_edge_by_indices 0 5` has `5` outside `[0, vertex_count)`; it raises
`IndexError` but the graph is NOT left unchanged (Edge(0,5) was already
appended to index 0's adjacency list).  And with vertices `[10]`, the
call `add_edge_by_indices (-1) (-1)` has both arguments outside
`[0, vertex_count)` yet raises no error at all (Python negative
indexing). -/
theorem add_edge_by_indices_out_of_range_counterexample :
    (¬ (0 ≤ (5 : Int) ∧
        (5 : Int) < ((Graph.ofVertices ([10, 20] : List Int)).vertex_count : Int)) ∧
      ((Graph.ofVertices ([10, 20] : List Int)).add_edge_by_indices 0 5).2 =
        some PyError.indexError ∧
      ((Graph.ofVertices ([10, 20] : List Int)).add_edge_by_indices 0 5).1 ≠
        Graph.ofVertices ([10, 20] : List Int)) ∧
    (¬ (0 ≤ (-1 : Int) ∧
        (-1 : Int) < ((Graph.ofVertices ([10] : List Int)).vertex_count : Int)) ∧
      ((Graph.ofVertices ([10] : List Int)).add_edge_by_indices (-1) (-1)).2 = none) := by
  decide

/-- C1 (amended): if `u` or `v` is outside Python's valid index range
`[-vertex_count, vertex_count)`, `add_edge_by_indices(u, v)` (that is,
`add_edge` on `Edge(u, v)`) fails with `IndexError` and never touches
the vertex sequence; the graph is unchanged when `u` itself is invalid,
but when `u` resolves and only `v` is invalid, `Edge(u, v)` remains
appended to `u`'s adjacency list (partial mutation). -/
theorem add_edge_by_indices_out_of_pyrange {V : Type} (g : Graph V) (u v : Int)
    (hlen : g.edges.length = g.vertices.length)
    (hout : u < -(g.vertex_count : Int) ∨ (g.vertex_count : Int) ≤ u ∨
      v < -(g.vertex_count : Int) ∨ (g.vertex_count : Int) ≤ v) :
    (g.add_edge_by_indices u v).2 = some PyError.indexError ∧
    (g.add_edge_by_indices u v).1.vertices = g.vertices ∧
    ((u < -(g.vertex_count : Int) ∨ (g.vertex_count : Int) ≤ u) →
      (g.add_edge_by_indices u v).1 = g) ∧
    (∀ iu, pyIdx g.edges.length u = some iu →
      (g.add_edge_by_indices u v).1 =
        { vertices := g.vertices, edges := appendAt g.edges iu (Edge.mk u v) }) := by
  have hvc : (g.vertex_count : Int) = (g.edges.length : Int) := by
    unfold Graph.vertex_count
    rw [hlen]
  rw [hvc] at hout ⊢
  cases hu : pyIdx g.edges.length u with
  | none =>
    have heq := Graph.add_edge_fail_u (g := g) (e := Edge.mk u v) hu
    rw [Graph.add_edge_by_indices, heq]
    exact ⟨rfl, rfl, fun _ => rfl, fun iu hiu => Option.noConfusion hiu⟩
  | some iu =>
    have hur := pyIdx_range hu
    have hv : pyIdx g.edges.length v = none := by
      apply pyIdx_eq_none
      omega
    have heq := Graph.add_edge_fail_v (g := g) (e := Edge.mk u v) hu hv
    rw [Graph.add_edge_by_indices, heq]
    refine ⟨rfl, rfl, fun hcon => absurd hcon (by omega), fun iu2 hiu2 => ?_⟩
    injection hiu2 with hiu2
    rw [hiu2]

/-- Witness for C1 (amended) at the concrete partial-mutation input. -/
theorem add_edge_by_indices_out_of_pyrange_witness :
    ((Graph.ofVertices ([10, 20] : List Int)).add_edge_by_indices 0 5).2 =
      some PyError.indexError :=
  (add_edge_by_indices_out_of_pyrange (Graph.ofVertices ([10, 20] : List Int)) 0 5
    (by decide) (by decide)).1

/-- C5: `add_edge_by_vertices(first, second)` fails with the NotFound
kind (`ValueError`) and leaves the graph unchanged when either value is
absent from the vertex sequence; when both are present it resolves each
value to the index of its first match and behaves as
`add_edge_by_indices` on those indices. -/
theorem add_edge_by_vertices_resolution {V : Type} [DecidableEq V]
    (g : Graph V) (f s : V) :
    ((f ∉ g.vertices ∨ s ∉ g.vertices) →
      g.add_edge_by_vertices f s = (g, some PyError.valueError)) ∧
    (∀ u v, g.index_of f = some u → g.index_of s = some v →
      (g.vertices[u]? = some f ∧ ∀ j, j < u → g.vertices[j]? ≠ some f) ∧
      (g.vertices[v]? = some s ∧ ∀ j, j < v → g.vertices[j]? ≠ some s) ∧
      g.add_edge_by_vertices f s = g.add_edge_by_indices u v) := by
  constructor
  · intro habs
    unfold Graph.add_edge_by_vertices
    rcases habs with hf | hs
    · rw [(pyIndex_eq_none_iff g.vertices f).mpr hf]
    · cases hf2 : pyIndex g.vertices f with
      | none => rfl
      | some u => rw [(pyIndex_eq_none_iff g.vertices s).mpr hs]
  · intro u v hu hv
    unfold Graph.index_of at hu hv
    obtain ⟨hu1, hu2⟩ := pyIndex_first hu
    obtain ⟨hv1, hv2⟩ := pyIndex_first hv
    refine ⟨⟨hu1, hu2⟩, ⟨hv1, hv2⟩, ?_⟩
    unfold Graph.add_edge_by_vertices
    rw [hu, hv]

/-- Witness for C5: on vertices `[3, 4]` the call resolves `3 ↦ 0`,
`4 ↦ 1` and behaves as `add_edge_by_indices 0 1`. -/
theorem add_edge_by_vertices_resolution_witness :
    (Graph.ofVertices ([3, 4] : List Int)).add_edge_by_vertices 3 4 =
      (Graph.ofVertices ([3, 4] : List Int)).add_edge_by_indices 0 1 :=
  ((add_edge_by_vertices_resolution (Graph.ofVertices ([3, 4] : List Int)) 3 4).2
    0 1 (by decide) (by decide)).2.2

/-- C8 is a code bug, evaluated at the failing input: on the graph with
vertices `[2, 0, 1]` and one edge added by `add_edge_by_indices 0 1`,
`edges_for_vertex 2` passes the vertex VALUE `2` to `vertex_at`
(yielding the vertex value `1`) and returns index 1's adjacency list
`[Edge(1,0)]`, whereas the claimed behaviour
`edges_for_index(index_of(2))` returns index 0's list `[Edge(0,1)]`. -/
theorem edges_for_vertex_diverges_from_claim :
    (((Graph.ofVertices ([2, 0, 1] : List Int)).add_edge_by_indices 0 1).1.edges_for_vertex 2 =
      some [Edge.mk 1 0]) ∧
    ((((Graph.ofVertices ([2, 0, 1] : List Int)).add_edge_by_indices 0 1).1.index_of 2).bind
        (fun i => (((Graph.ofVertices ([2, 0, 1] : List Int)).add_edge_by_indices 0 1).1.edges_for_index (i : Int))) =
      some [Edge.mk 0 1]) ∧
    (((Graph.ofVertices ([2, 0, 1] : List Int)).add_edge_by_indices 0 1).1.edges_for_vertex 2 ≠
      (((Graph.ofVertices ([2, 0, 1] : List Int)).add_edge_by_indices 0 1).1.index_of 2).bind
        (fun i => (((Graph.ofVertices ([2, 0, 1] : List Int)).add_edge_by_indices 0 1).1.edges_for_index (i : Int)))) := by
  decide

/-- C3: a successful in-range `add_edge_by_indices(u, v)` appends
`Edge(u, v)` to `u`'s adjacency list and `Edge(v, u)` to `v`'s (the two
lists are extended by exactly those records when `u ≠ v`; both records
land in the one shared list when `u = v`), so `vertex_at(v)` appears in
`neighbors_for_index(u)` and `vertex_at(u)` appears in
`neighbors_for_index(v)`. -/
theorem add_edge_by_indices_symmetry {V : Type} (g : Graph V) (u v : Int)
    (hwf : g.wf)
    (hu0 : 0 ≤ u) (hu1 : u < (g.vertex_count : Int))
    (hv0 : 0 ≤ v) (hv1 : v < (g.vertex_count : Int)) :
    (g.add_edge_by_indices u v).2 = none ∧
    (u ≠ v → ∀ lu lv, g.edges_for_index u = some lu → g.edges_for_index v = some lv →
      (g.add_edge_by_indices u v).1.edges_for_index u = some (lu ++ [Edge.mk u v]) ∧
      (g.add_edge_by_indices u v).1.edges_for_index v = some (lv ++ [Edge.mk v u])) ∧
    (∃ lu2, (g.add_edge_by_indices u v).1.edges_for_index u = some lu2 ∧
      Edge.mk u v ∈ lu2) ∧
    (∃ lv2, (g.add_edge_by_indices u v).1.edges_for_index v = some lv2 ∧
      Edge.mk v u ∈ lv2) ∧
    (∃ xu xv nu nv, g.vertex_at u = some xu ∧ g.vertex_at v = some xv ∧
      (g.add_edge_by_indices u v).1.neighbors_for_index u = some nu ∧ xv ∈ nu ∧
      (g.add_edge_by_indices u v).1.neighbors_for_index v = some nv ∧ xu ∈ nv) := by
  obtain ⟨hlen, hb⟩ := hwf
  have hu1' : u < (g.vertices.length : Int) := hu1
  have hv1' : v < (g.vertices.length : Int) := hv1
  have hiu : u.toNat < g.edges.length := by omega
  have hiv : v.toNat < g.edges.length := by omega
  obtain ⟨hg1, herr⟩ := Graph.add_edge_by_indices_spec (g := g) hlen hu0 hu1' hv0 hv1'
  set a := Edge.mk u v with hadef
  set b := Edge.mk v u with hbdef
  set ee := appendAt (appendAt g.edges u.toNat a) v.toNat b with heedef
  rw [hg1]
  have hlee : ee.length = g.edges.length := by rw [heedef]; simp
  have hEfi : ∀ i : Int, 0 ≤ i → i < (g.edges.length : Int) →
      Graph.edges_for_index { vertices := g.vertices, edges := ee } i = ee[i.toNat]? := by
    intro i h0 h1
    apply Graph.edges_for_index_eq (g := { vertices := g.vertices, edges := ee }) h0
    show i < (ee.length : Int)
    rw [hlee]
    exact h1
  have hbee : ∀ (j : Nat) (L : List Edge), ee[j]? = some L →
      ∀ e ∈ L, 0 ≤ e.v ∧ e.v < (g.vertices.length : Int) := by
    intro j L hL e he
    rw [heedef] at hL
    rcases mem_of_appendAt (by simp; omega) hL he with h1 | rfl
    · obtain ⟨L0, hL0, he0⟩ := h1
      rcases mem_of_appendAt hiu hL0 he0 with h2 | rfl
      · obtain ⟨L1, hL1, he1⟩ := h2
        exact hb L1 (List.getElem?_mem hL1) e he1
      · exact ⟨hv0, hv1'⟩
    · exact ⟨hu0, hu1'⟩
  have hLu : g.edges[u.toNat]? = some (g.edges.get ⟨u.toNat, hiu⟩) := List.getElem?_eq_getElem hiu
  have hLv : g.edges[v.toNat]? = some (g.edges.get ⟨v.toNat, hiv⟩) := List.getElem?_eq_getElem hiv
  have hgu : g.edges_for_index u = some (g.edges.get ⟨u.toNat, hiu⟩) := by
    rw [Graph.edges_for_index_eq hu0 (by omega : u < (g.edges.length : Int))]
    exact hLu
  have hgv : g.edges_for_index v = some (g.edges.get ⟨v.toNat, hiv⟩) := by
    rw [Graph.edges_for_index_eq hv0 (by omega : v < (g.edges.length : Int))]
    exact hLv
  obtain ⟨xu, hxu⟩ := pyGet_isSome_of (l := g.vertices) hu0 hu1'
  obtain ⟨xv, hxv⟩ := pyGet_isSome_of (l := g.vertices) hv0 hv1'
  by_cases huv : u = v
  · subst huv
    have hfin : ee[u.toNat]? = some ((g.edges.get ⟨u.toNat, hiu⟩ ++ [a]) ++ [b]) := by
      rw [heedef]
      exact getElem?_appendAt_of_eq (getElem?_appendAt_of_eq hLu a) b
    have hEu : Graph.edges_for_index { vertices := g.vertices, edges := ee } u =
        some ((g.edges.get ⟨u.toNat, hiu⟩ ++ [a]) ++ [b]) := by
      rw [hEfi u hu0 (by omega)]
      exact hfin
    obtain ⟨nu, hnu, hnmem⟩ := Graph.neighbors_for_index_spec
      (g := { vertices := g.vertices, edges := ee }) hu0
      (by show u < (ee.length : Int); omega) hfin
      (hbee u.toNat _ hfin)
    refine ⟨herr, fun hne => absurd rfl hne, ⟨_, hEu, by simp⟩, ⟨_, hEu, by simp⟩,
      xu, xu, nu, nu, hxu, hxu, hnu, ?_, hnu, ?_⟩
    · exact hnmem a (by simp) xu hxu
    · exact hnmem b (by simp) xu hxu
  · have hnuv : u.toNat ≠ v.toNat := by omega
    have hfu : ee[u.toNat]? = some (g.edges.get ⟨u.toNat, hiu⟩ ++ [a]) := by
      rw [heedef, getElem?_appendAt_ne (Ne.symm hnuv)]
      exact getElem?_appendAt_of_eq hLu a
    have hfv : ee[v.toNat]? = some (g.edges.get ⟨v.toNat, hiv⟩ ++ [b]) := by
      rw [heedef]
      apply getElem?_appendAt_of_eq
      rw [getElem?_appendAt_ne hnuv]
      exact hLv
    have hEu : Graph.edges_for_index { vertices := g.vertices, edges := ee } u =
        some (g.edges.get ⟨u.toNat, hiu⟩ ++ [a]) := by
      rw [hEfi u hu0 (by omega)]
      exact hfu
    have hEv : Graph.edges_for_index { vertices := g.vertices, edges := ee } v =
        some (g.edges.get ⟨v.toNat, hiv⟩ ++ [b]) := by
      rw [hEfi v hv0 (by omega)]
      exact hfv
    obtain ⟨nu, hnu, hnmemu⟩ := Graph.neighbors_for_index_spec
      (g := { vertices := g.vertices, edges := ee }) hu0
      (by show u < (ee.length : Int); omega) hfu
      (hbee u.toNat _ hfu)
    obtain ⟨nv, hnv, hnmemv⟩ := Graph.neighbors_for_index_spec
      (g := { vertices := g.vertices, edges := ee }) hv0
      (by show v < (ee.length : Int); omega) hfv
      (hbee v.toNat _ hfv)
    refine ⟨herr, ?_, ⟨_, hEu, by simp⟩, ⟨_, hEv, by simp⟩,
      xu, xv, nu, nv, hxu, hxv, hnu, ?_, hnv, ?_⟩
    · intro _ lu lv hlu2 hlv2
      rw [hgu] at hlu2
      injection hlu2 with hlu2
      rw [hgv] at hlv2
      injection hlv2 with hlv2
      subst hlu2
      subst hlv2
      exact ⟨hEu, hEv⟩
    · exact hnmemu a (by simp) xv hxv
    · exact hnmemv b (by simp) xu hxu

/-- Witness for C3: adding edge (0, 1) on the two-vertex graph with
values `[5, 6]` succeeds. -/
theorem add_edge_by_indices_symmetry_witness :
    ((Graph.ofVertices ([5, 6] : List Int)).add_edge_by_indices 0 1).2 = none :=
  (add_edge_by_indices_symmetry (Graph.ofVertices ([5, 6] : List Int)) 0 1
    (by decide) (by decide) (by decide) (by decide) (by decide)).1

lemma Graph.neighbors_for_index_eq_optMap {V : Type} {g : Graph V} {i : Int}
    {l : List Edge}
    (h0 : 0 ≤ i) (h1 : i < (g.edges.length : Int))
    (hE : g.edges[i.toNat]? = some l) :
    g.neighbors_for_index i = optMap (pyGet g.vertices) (l.map Edge.v) := by
  unfold Graph.neighbors_for_index
  rw [pyGet_of_nonneg h0 h1, hE]
  rfl

/-- C6: a successful in-range weighted `add_edge_by_indices(u, v, w)`
makes `(vertex_at v, w)` appear in
`neighbors_for_index_with_weights(u)`, and the reverse entry stored at
`v` is `WeightedEdge(v, u, w)` — `reversed` preserves the weight. -/
theorem wadd_edge_by_indices_weight_preserved {V : Type} (g : WGraph V)
    (u v : Int) (w : Rat) (hwf : g.wf)
    (hu0 : 0 ≤ u) (hu1 : u < (g.vertex_count : Int))
    (hv0 : 0 ≤ v) (hv1 : v < (g.vertex_count : Int)) :
    (g.add_edge_by_indices u v w).2 = none ∧
    (∀ e : WEdge, (WEdge.reversed e).weight = e.weight) ∧
    WEdge.reversed (WEdge.mk u v w) = WEdge.mk v u w ∧
    (∃ lv2, (g.add_edge_by_indices u v w).1.edges_for_index v = some lv2 ∧
      lv2.getLast? = some (WEdge.mk v u w)) ∧
    (∃ xv ps, g.vertex_at v = some xv ∧
      (g.add_edge_by_indices u v w).1.neighbors_for_index_with_weights u = some ps ∧
      (xv, w) ∈ ps) := by
  obtain ⟨hlen, hb⟩ := hwf
  have hu1' : u < (g.vertices.length : Int) := hu1
  have hv1' : v < (g.vertices.length : Int) := hv1
  have hiu : u.toNat < g.edges.length := by omega
  have hiv : v.toNat < g.edges.length := by omega
  obtain ⟨hg1, herr⟩ := WGraph.add_edge_by_indices_spec_weighted (g := g) hlen hu0 hu1' hv0 hv1'
  set a := WEdge.mk u v w with hadef
  set b := WEdge.mk v u w with hbdef
  set ee := appendAt (appendAt g.edges u.toNat a) v.toNat b with heedef
  rw [hg1]
  have hlee : ee.length = g.edges.length := by rw [heedef]; simp
  have hbee : ∀ (j : Nat) (L : List WEdge), ee[j]? = some L →
      ∀ e ∈ L, 0 ≤ e.v ∧ e.v < (g.vertices.length : Int) := by
    intro j L hL e he
    rw [heedef] at hL
    rcases mem_of_appendAt (by simp; omega) hL he with h1 | rfl
    · obtain ⟨L0, hL0, he0⟩ := h1
      rcases mem_of_appendAt hiu hL0 he0 with h2 | rfl
      · obtain ⟨L1, hL1, he1⟩ := h2
        exact hb L1 (List.getElem?_mem hL1) e he1
      · exact ⟨hv0, hv1'⟩
    · exact ⟨hu0, hu1'⟩
  have hLu : g.edges[u.toNat]? = some (g.edges.get ⟨u.toNat, hiu⟩) := List.getElem?_eq_getElem hiu
  have hLv : g.edges[v.toNat]? = some (g.edges.get ⟨v.toNat, hiv⟩) := List.getElem?_eq_getElem hiv
  obtain ⟨xv, hxv⟩ := pyGet_isSome_of (l := g.vertices) hv0 hv1'
  refine ⟨herr, fun e => rfl, rfl, ?_, ?_⟩
  · -- the entry stored last at v is the weight-preserving reversal
    by_cases huv : u = v
    · subst huv
      have hfin : ee[u.toNat]? = some ((g.edges.get ⟨u.toNat, hiu⟩ ++ [a]) ++ [b]) := by
        rw [heedef]
        exact getElem?_appendAt_of_eq (getElem?_appendAt_of_eq hLu a) b
      refine ⟨(g.edges.get ⟨u.toNat, hiu⟩ ++ [a]) ++ [b], ?_, List.getLast?_concat _⟩
      rw [WGraph.edges_for_index_eq_weighted (g := { vertices := g.vertices, edges := ee }) hu0
        (by show u < (ee.length : Int); omega)]
      exact hfin
    · have hnuv : u.toNat ≠ v.toNat := by omega
      have hfv : ee[v.toNat]? = some (g.edges.get ⟨v.toNat, hiv⟩ ++ [b]) := by
        rw [heedef]
        apply getElem?_appendAt_of_eq
        rw [getElem?_appendAt_ne hnuv]
        exact hLv
      refine ⟨g.edges.get ⟨v.toNat, hiv⟩ ++ [b], ?_, List.getLast?_concat _⟩
      rw [WGraph.edges_for_index_eq_weighted (g := { vertices := g.vertices, edges := ee }) hv0
        (by show v < (ee.length : Int); omega)]
      exact hfv
  · -- (vertex_at v, w) appears among u's weighted neighbors
    have hfu : ∃ L, ee[u.toNat]? = some L ∧ a ∈ L := by
      by_cases huv : u = v
      · subst huv
        refine ⟨(g.edges.get ⟨u.toNat, hiu⟩ ++ [a]) ++ [b], ?_, by simp⟩
        rw [heedef]
        exact getElem?_appendAt_of_eq (getElem?_appendAt_of_eq hLu a) b
      · have hnuv : u.toNat ≠ v.toNat := by omega
        refine ⟨g.edges.get ⟨u.toNat, hiu⟩ ++ [a], ?_, by simp⟩
        rw [heedef, getElem?_appendAt_ne (Ne.symm hnuv)]
        exact getElem?_appendAt_of_eq hLu a
    obtain ⟨L, hL, haL⟩ := hfu
    obtain ⟨ps, hps, hpmem⟩ := WGraph.neighbors_with_weights_spec
      (g := { vertices := g.vertices, edges := ee }) hu0
      (by show u < (ee.length : Int); omega) hL (hbee u.toNat L hL)
    exact ⟨xv, ps, hxv, hps, hpmem a haL xv hxv⟩

/-- Witness for C6: adding a weighted edge (0, 1, 10) on the weighted
graph with vertices `[3, 4]` succeeds. -/
theorem wadd_edge_by_indices_weight_preserved_witness :
    ((WGraph.ofVertices ([3, 4] : List Int)).add_edge_by_indices 0 1 10).2 = none :=
  (wadd_edge_by_indices_weight_preserved (WGraph.ofVertices ([3, 4] : List Int)) 0 1 10
    (by decide) (by decide) (by decide) (by decide) (by decide)).1

/-- C10: a self-loop `add_edge_by_indices(u, u)` on an in-range index
succeeds, appends `Edge(u, u)` and its (equal) reversal to `u`'s one
adjacency list, still increases `edge_count` by exactly 2, and makes
`vertex_at(u)` appear twice in `neighbors_for_index(u)`. -/
theorem add_edge_by_indices_self_loop {V : Type} [DecidableEq V] (g : Graph V)
    (u : Int) (hwf : g.wf) (hu0 : 0 ≤ u) (hu1 : u < (g.vertex_count : Int)) :
    (g.add_edge_by_indices u u).2 = none ∧
    Edge.reversed (Edge.mk u u) = Edge.mk u u ∧
    (∀ lu, g.edges_for_index u = some lu →
      (g.add_edge_by_indices u u).1.edges_for_index u =
        some (lu ++ [Edge.mk u u, Edge.mk u u])) ∧
    (g.add_edge_by_indices u u).1.edge_count = g.edge_count + 2 ∧
    (∃ x nu0, g.vertex_at u = some x ∧
      g.neighbors_for_index u = some nu0 ∧
      (g.add_edge_by_indices u u).1.neighbors_for_index u = some (nu0 ++ [x, x]) ∧
      2 ≤ (nu0 ++ [x, x]).count x) := by
  obtain ⟨hlen, hb⟩ := hwf
  have hu1' : u < (g.vertices.length : Int) := hu1
  have hiu : u.toNat < g.edges.length := by omega
  obtain ⟨hg1, herr⟩ := Graph.add_edge_by_indices_spec (g := g) hlen hu0 hu1' hu0 hu1'
  have hcount : (g.add_edge_by_indices u u).1.edge_count = g.edge_count + 2 :=
    Graph.edge_count_add_edge_success herr
  set ee := appendAt (appendAt g.edges u.toNat (Edge.mk u u)) u.toNat (Edge.mk u u)
    with heedef
  rw [hg1]
  rw [hg1] at hcount
  have hlee : ee.length = g.edges.length := by rw [heedef]; simp
  have hLu : g.edges[u.toNat]? = some (g.edges.get ⟨u.toNat, hiu⟩) := List.getElem?_eq_getElem hiu
  have hfin : ee[u.toNat]? =
      some ((g.edges.get ⟨u.toNat, hiu⟩ ++ [Edge.mk u u]) ++ [Edge.mk u u]) := by
    rw [heedef]
    exact getElem?_appendAt_of_eq (getElem?_appendAt_of_eq hLu _) _
  have hgu : g.edges_for_index u = some (g.edges.get ⟨u.toNat, hiu⟩) := by
    rw [Graph.edges_for_index_eq hu0 (by omega : u < (g.edges.length : Int))]
    exact hLu
  obtain ⟨x, hx⟩ := pyGet_isSome_of (l := g.vertices) hu0 hu1'
  have hbLu : ∀ j ∈ (g.edges.get ⟨u.toNat, hiu⟩).map Edge.v, ∃ y, pyGet g.vertices j = some y := by
    intro j hj
    obtain ⟨e, he, rfl⟩ := List.mem_map.mp hj
    have hbe := hb _ (List.getElem?_mem hLu) e he
    exact pyGet_isSome_of hbe.1 hbe.2
  obtain ⟨nu0, hnu0⟩ := optMap_eq_some hbLu
  have hold : g.neighbors_for_index u = some nu0 := by
    rw [Graph.neighbors_for_index_eq_optMap hu0
      (by omega : u < (g.edges.length : Int)) hLu]
    exact hnu0
  have hsingle : optMap (pyGet g.vertices) [u] = some [x] := by
    simp [optMap, hx]
  have hnew : Graph.neighbors_for_index { vertices := g.vertices, edges := ee } u =
      some ((nu0 ++ [x]) ++ [x]) := by
    have h1ee : u < (ee.length : Int) := by omega
    have hmap : ((g.edges.get ⟨u.toNat, hiu⟩ ++ [Edge.mk u u]) ++ [Edge.mk u u]).map Edge.v =
        (((g.edges.get ⟨u.toNat, hiu⟩).map Edge.v ++ [u]) ++ [u]) := by
      simp
    rw [Graph.neighbors_for_index_eq_optMap
      (g := { vertices := g.vertices, edges := ee }) hu0 h1ee hfin, hmap]
    exact optMap_append (optMap_append hnu0 hsingle) hsingle
  refine ⟨herr, rfl, ?_, hcount, x, nu0, hx, hold, ?_, ?_⟩
  · intro lu hlu
    rw [hgu] at hlu
    injection hlu with hlu
    subst hlu
    rw [Graph.edges_for_index_eq (g := { vertices := g.vertices, edges := ee }) hu0
      (by show u < (ee.length : Int); omega)]
    rw [hfin]
    simp
  · rw [hnew]
    simp
  · simp [List.count_append]

/-- Witness for C10: a self-loop at index 0 on a one-vertex graph
succeeds. -/
theorem add_edge_by_indices_self_loop_witness :
    ((Graph.ofVertices ([9] : List Int)).add_edge_by_indices 0 0).2 = none :=
  (add_edge_by_indices_self_loop (Graph.ofVertices ([9] : List Int)) 0
    (by decide) (by decide) (by decide)).1
